import Mathlib

/-!
Verification development for the justact core library.

The development shallowly embeds the Rust sources:
 - messages.rs: MessageSet with its order-independent equality and hashing;
 - statements.rs / agreements.rs / set.rs (the older revision): the Action
   structure, justification and the audit algorithm over LocalSet stores;
 - actors.rs / actions.rs (the newer revision): the View composite with
   get_statement and statements, over fallible stores;
 - collections/map.rs: the Map / MapSync implementations for Vec and HashMap
   and the InfallibleMap wrappers.

Machine integers do not overflow in any of the embedded code paths
(identifiers are only compared), so identifiers, authors and timestamps are
modelled as Nat. HashSet- and HashMap-backed collections are modelled as
lists (iteration order being the list order); keying a HashMap by the hash
of an identifier is modelled as keying by the identifier itself.
-/

namespace JustAct

/-- A concrete message: an identifier, the author's identifier, and an opaque
payload of bytes. This instantiates the Message traits of both revisions
(auxillary.rs: Identifiable and Authored; payload as raw bytes). -/
structure Msg where
  id : Nat
  author : Nat
  payload : List Nat
deriving DecidableEq, Repr

/-! ### messages.rs: MessageSet -/

/-- MessageSet (messages.rs): a bunch of messages backed by a HashSet. The
backing HashSet is modelled as the list of elements in iteration order;
HashSet guarantees the elements are pairwise distinct. -/
structure MessageSet where
  data : List Msg
deriving DecidableEq, Repr

/-- One step of the cross-out loop in the PartialEq impl for MessageSet
(messages.rs): find an element of the pool equal to the probed element and
remove it. The source removes with swap_remove; since only equality of the
overall verdict matters and equal pool elements are interchangeable, removal
of the first match models it. -/
def crossOut (elem : Msg) : List Msg → Option (List Msg)
  | [] => none
  | e :: rest =>
    if elem = e then some rest
    else (crossOut elem rest).map (fun l => e :: l)

/-- The main loop of the PartialEq impl for MessageSet (messages.rs): walk the
left-hand elements, crossing each out of the pool; fail as soon as one has no
match left. -/
def msetEqLoop (pool : List Msg) : List Msg → Bool
  | [] => true
  | e :: rest =>
    match crossOut e pool with
    | some pool2 => msetEqLoop pool2 rest
    | none => false

/-- PartialEq for MessageSet (messages.rs, lines 214-243), translated as
written: lengths are compared first, and then the cross-out pool is built
from SELF's elements (the source reads self.data.iter().collect() at line
225, although its comments speak of the items of the right-hand operand),
after which the loop also walks SELF's elements. -/
def msetEq (a b : MessageSet) : Bool :=
  if a.data.length ≠ b.data.length then false
  else msetEqLoop a.data a.data

/-- Stable insertion by key used to model sort_by_key (elements are placed
after already-placed elements with the same key, as in a stable sort). -/
def insertByKey (h : Msg → Nat) (acc : List Msg) (m : Msg) : List Msg :=
  match acc with
  | [] => [m]
  | x :: xs => if h m < h x then m :: x :: xs else x :: insertByKey h xs m

/-- Sorting by a key function, processing elements left to right; models the
stable sort_by_key call of the Hash impl. -/
def sortByKey (h : Msg → Nat) (l : List Msg) : List Msg :=
  l.foldl (insertByKey h) []

/-- Hash for MessageSet (messages.rs, lines 192-213), modelled at the level of
the data fed to the hasher: the elements are sorted by a deterministic
per-element hash h (the DefaultHasher summary) and then fed to the hasher
state in that order. Two sets produce identical hasher output exactly when
they feed identical element sequences, so the model returns that sequence. -/
def msetHash (h : Msg → Nat) (s : MessageSet) : List Msg :=
  sortByKey h s.data

/-- A deterministic stand-in for the per-element DefaultHasher summary used in
concrete evaluations. -/
def elemHash (m : Msg) : Nat :=
  m.id + 2 * m.author + m.payload.length

/-- The multiset-collapse equality the specification ascribes to MessageSets:
sizes match and the elements are in one-to-one matching correspondence, i.e.
the element lists are permutations of one another. -/
def specMsetEq (a b : MessageSet) : Prop :=
  a.data.Perm b.data

instance : DecidablePred (fun p : MessageSet × MessageSet => specMsetEq p.1 p.2) :=
  fun p => List.decidablePerm p.1.data p.2.data

/-- First message used in concrete counterexamples. -/
def msgA : Msg := { id := 1, author := 1, payload := [] }

/-- Second message used in concrete counterexamples; differs from msgA. -/
def msgB : Msg := { id := 2, author := 1, payload := [7] }

/-- C1: the claim states that MessageSet equality returns true iff the two
sets have the same size and admit a one-to-one matching of equal elements.
The code violates this: the cross-out pool is built from the left-hand
operand itself, so eq degenerates to a size comparison. At the failing input
a = from [msgA], b = from [msgB], eq returns true although no matching pairs
msgA with an equal element of b. -/
theorem msetEq_pool_bug_eval :
    msetEq ⟨[msgA]⟩ ⟨[msgB]⟩ = true ∧ ¬ specMsetEq ⟨[msgA]⟩ ⟨[msgB]⟩ := by
  constructor
  · rfl
  · intro h
    have := h.mem_iff (a := msgA)
    simp [msgA, msgB] at this

/-- C6: the claim states that MessageSets comparing equal under eq feed
identical data to identically-initialized hashers. At the failing input
a = from [msgA], b = from [msgB], eq returns true (because of the cross-out
pool bug), yet the element sequences fed to the hasher differ for every
per-element hash function, so the hash outputs differ. -/
theorem msetHash_vs_eq_eval :
    msetEq ⟨[msgA]⟩ ⟨[msgB]⟩ = true ∧
      msetHash elemHash ⟨[msgA]⟩ ≠ msetHash elemHash ⟨[msgB]⟩ := by
  exact ⟨rfl, by decide⟩

/-! ### set.rs, agreements.rs, statements.rs (older revision): the audit -/

namespace Stmts

/-- LocalSet (set.rs): a HashMap from the hash of an element identifier to the
element. Modelled as an association list keyed by the identifier itself (the
hash being injective in the model); iteration order of the HashMap is the
list order. -/
def LocalSet (V : Type) : Type := List (Nat × V)

/-- HashMap::insert as used by LocalSet::add (set.rs): replace the value at an
existing key, or append the binding. -/
def lsAdd {V : Type} : LocalSet V → Nat → V → LocalSet V
  | [], k, v => [(k, v)]
  | (k0, v0) :: rest, k, v =>
    if k0 = k then (k0, v) :: rest else (k0, v0) :: lsAdd rest k v

/-- The values of a LocalSet, in iteration order. -/
def lsVals {V : Type} (s : LocalSet V) : List V := s.map Prod.snd

/-- LocalSet::contains (set.rs): whether an element with the given identifier
is present. -/
def lsContains {V : Type} (s : LocalSet V) (k : Nat) : Bool :=
  s.any (fun p => p.1 == k)

/-- LocalSet built from an iterator of messages (FromIterator in set.rs):
each message is keyed by its own identifier. -/
def lsCollect (vals : List Msg) : LocalSet Msg :=
  vals.foldl (fun s m => lsAdd s m.id m) []

/-- Agreement (agreements.rs): a stated message plus the timestamp at which it
may be used as a basis for actions. -/
structure Agreement where
  msg : Msg
  timestamp : Nat
deriving DecidableEq, Repr

/-- Action (statements.rs): basis agreement, justification set, enacted
statement and the timestamp at which the action was taken. -/
structure Action where
  basis : Agreement
  just : LocalSet Msg
  enacts : Msg
  timestamp : Nat

/-- Action::justification (statements.rs, lines 141-150): the justification
set collected from the action's just set, with the basis message and the
enacted statement added. -/
def justification (a : Action) : LocalSet Msg :=
  lsAdd (lsAdd (lsCollect (lsVals a.just)) a.basis.msg.id a.basis.msg)
    a.enacts.id a.enacts

/-- AuditExplanation (statements.rs, lines 29-41): why an audit failed.
Identifiers and timestamps are Nat in the model; the syntax- and semantic
error types stay generic. -/
inductive AuditExplanation (SynE SemE : Type) where
  | stated (stmt : Nat)
  | extract (err : SynE)
  | valid (expl : SemE)
  | based (stmt : Nat)
  | timely (stmt : Nat) (appliesAt : Nat) (takenAt : Nat)
deriving DecidableEq, Repr

/-- Action::audit (statements.rs, lines 173-230). The external Extractor and
Policy collaborators are passed as functions: ext extracts a policy from a
message set, validity is Policy::assert_validity. The stated and agreed
arguments are the LocalSets returned by Statements::stated() and
Agreements::agreed(). The properties are checked in source order: statedness
of every justification message, extraction, validity, basis membership,
timestamp equality. -/
def audit {Pol SynE SemE : Type} (ext : LocalSet Msg → Except SynE Pol)
    (validity : Pol → Except SemE Unit)
    (stated : LocalSet Msg) (agreed : LocalSet Agreement) (a : Action) :
    Except (AuditExplanation SynE SemE) Unit :=
  match (lsVals (justification a)).find?
      (fun m => !(lsContains agreed m.id) && !(lsContains stated m.id)) with
  | some m => .error (.stated m.id)
  | none =>
    match ext (justification a) with
    | .error err => .error (.extract err)
    | .ok policy =>
      match validity policy with
      | .error expl => .error (.valid expl)
      | .ok _ =>
        if !(lsContains agreed a.basis.msg.id) then
          .error (.based a.basis.msg.id)
        else if a.basis.timestamp ≠ a.timestamp then
          .error (.timely a.basis.msg.id a.basis.timestamp a.timestamp)
        else .ok ()

end Stmts

section AuditTheorems

open Stmts

/-- The statedness predicate probed by the audit loop, as a Prop: the message
is covered by the agreed set or by the stated set. -/
def coveredBy (agreed : LocalSet Stmts.Agreement) (stated : LocalSet Msg)
    (m : Msg) : Prop :=
  lsContains agreed m.id = true ∨ lsContains stated m.id = true

instance (agreed : LocalSet Stmts.Agreement) (stated : LocalSet Msg) :
    DecidablePred (coveredBy agreed stated) := by
  intro m
  unfold coveredBy
  infer_instance

/-- Intermediate characterization: audit returns unit exactly when the
stated-loop finds nothing, extraction and validity pass, and both basis
checks pass. -/
theorem audit_ok_iff {Pol SynE SemE : Type}
    (ext : LocalSet Msg → Except SynE Pol) (validity : Pol → Except SemE Unit)
    (stated : LocalSet Msg) (agreed : LocalSet Stmts.Agreement)
    (a : Stmts.Action) :
    audit ext validity stated agreed a = .ok () ↔
      ((lsVals (justification a)).find?
          (fun m => !(lsContains agreed m.id) && !(lsContains stated m.id))
            = none ∧
        (∃ p, ext (justification a) = .ok p ∧ validity p = .ok ()) ∧
        lsContains agreed a.basis.msg.id = true ∧
        a.basis.timestamp = a.timestamp) := by
  unfold audit
  cases hf : (lsVals (justification a)).find?
      (fun m => !(lsContains agreed m.id) && !(lsContains stated m.id)) with
  | some m => simp [hf]
  | none =>
    simp only [hf, true_and]
    cases he : ext (justification a) with
    | error err => simp [hf, he]
    | ok p =>
      cases hv : validity p with
      | error expl => simp [hf, he, hv]
      | ok u =>
        cases u
        by_cases hb : lsContains agreed a.basis.msg.id = true
        · by_cases ht : a.basis.timestamp = a.timestamp
          · simp [hf, he, hv, hb, ht]
          · simp [hf, he, hv, hb, ht]
        · simp only [Bool.not_eq_true] at hb
          simp [hf, he, hv, hb]

/-- The find?-condition of the audit loop is empty exactly when every
justification message is covered. -/
theorem audit_find_none_iff (agreed : LocalSet Stmts.Agreement)
    (stated : LocalSet Msg) (l : List Msg) :
    (l.find? (fun m => !(lsContains agreed m.id) && !(lsContains stated m.id))
        = none) ↔ ∀ m ∈ l, coveredBy agreed stated m := by
  rw [List.find?_eq_none]
  constructor
  · intro h m hm
    unfold coveredBy
    by_cases h1 : lsContains agreed m.id = true
    · exact Or.inl h1
    · by_cases h2 : lsContains stated m.id = true
      · exact Or.inr h2
      · simp only [Bool.not_eq_true] at h1 h2
        exact absurd (by simp [h1, h2]) (h m hm)
  · intro h m hm hp
    rcases h m hm with h1 | h1 <;> simp [h1] at hp

/-- C2: Action::audit succeeds exactly when all four checks hold: every
message of the full justification (basis, extras, enacted statement) is in
the agreed or stated set; policy extraction succeeds; the extracted policy is
valid; the basis is a member of the agreed set and its applies_at timestamp
equals the action's timestamp. When only the timestamp check fails, the
returned error is Timely carrying the agreement's applies_at and the action's
taken_at. -/
theorem audit_success_iff_checks {Pol SynE SemE : Type}
    (ext : LocalSet Msg → Except SynE Pol) (validity : Pol → Except SemE Unit)
    (stated : LocalSet Msg) (agreed : LocalSet Stmts.Agreement)
    (a : Stmts.Action) :
    (audit ext validity stated agreed a = .ok () ↔
      ((∀ m ∈ lsVals (justification a), coveredBy agreed stated m) ∧
        (∃ p, ext (justification a) = .ok p ∧ validity p = .ok ()) ∧
        lsContains agreed a.basis.msg.id = true ∧
        a.basis.timestamp = a.timestamp)) ∧
    ((∀ m ∈ lsVals (justification a), coveredBy agreed stated m) →
      (∃ p, ext (justification a) = .ok p ∧ validity p = .ok ()) →
      lsContains agreed a.basis.msg.id = true →
      a.basis.timestamp ≠ a.timestamp →
      audit ext validity stated agreed a =
        .error (.timely a.basis.msg.id a.basis.timestamp a.timestamp)) := by
  constructor
  · rw [audit_ok_iff, audit_find_none_iff]
  · intro hcov hext hb ht
    rcases hext with ⟨p, hep, hvp⟩
    unfold audit
    rw [(audit_find_none_iff agreed stated _).mpr hcov]
    simp [hep, hvp, hb, ht]

/-- C3: when some justification message is neither agreed nor stated and the
timestamp check also fails, audit reports the Stated property (the first
violated check), never Timely. -/
theorem audit_reports_stated_first {Pol SynE SemE : Type}
    (ext : LocalSet Msg → Except SynE Pol) (validity : Pol → Except SemE Unit)
    (stated : LocalSet Msg) (agreed : LocalSet Stmts.Agreement)
    (a : Stmts.Action)
    (hbad : ∃ m ∈ lsVals (justification a), ¬ coveredBy agreed stated m)
    (_htime : a.basis.timestamp ≠ a.timestamp) :
    ∃ i, audit ext validity stated agreed a =
      .error (AuditExplanation.stated i) := by
  have hfind : ((lsVals (justification a)).find?
      (fun m => !(lsContains agreed m.id) && !(lsContains stated m.id))).isSome
        = true := by
    rw [List.find?_isSome]
    rcases hbad with ⟨m, hm, hnc⟩
    refine ⟨m, hm, ?_⟩
    unfold coveredBy at hnc
    push_neg at hnc
    simp [hnc.1, hnc.2]
  rcases Option.isSome_iff_exists.mp hfind with ⟨m, hm⟩
  refine ⟨m.id, ?_⟩
  unfold audit
  rw [hm]

/-- The agreed message of the concrete audit scenario (M1, applying at 5). -/
def wMsg1 : Msg := { id := 1, author := 10, payload := [1] }

/-- The extra stated message of the concrete audit scenario (M2). -/
def wMsg2 : Msg := { id := 2, author := 20, payload := [2] }

/-- The basis agreement of the concrete audit scenario. -/
def wAgr : Stmts.Agreement := { msg := wMsg1, timestamp := 5 }

/-- The audited action of the concrete scenario: basis M1@5, extra M2,
enacting M2, taken at 5. -/
def wAct : Stmts.Action :=
  { basis := wAgr, just := [(2, wMsg2)], enacts := wMsg2, timestamp := 5 }

/-- The audited action of the order scenario: as wAct but taken at 6, with an
empty stated set making M2 unstated. -/
def wActLate : Stmts.Action :=
  { basis := wAgr, just := [(2, wMsg2)], enacts := wMsg2, timestamp := 6 }

/-- Trivially succeeding extractor used in the concrete audit scenarios. -/
def wExt : Stmts.LocalSet Msg → Except Unit Unit := fun _ => Except.ok ()

/-- Trivially valid policy check used in the concrete audit scenarios. -/
def wValidity : Unit → Except Unit Unit := fun _ => Except.ok ()

/-- Witness for C2: at the concrete scenario (agreed M1@5, stated M2, action
based on M1@5 enacting M2 at time 5, trivial extractor and validity), the
audit succeeds, obtained through the success characterization. -/
theorem audit_success_iff_checks_witness :
    Stmts.audit wExt wValidity [(2, wMsg2)] [(1, wAgr)] wAct = .ok () := by
  apply (audit_success_iff_checks wExt wValidity
    [(2, wMsg2)] [(1, wAgr)] wAct).1.mpr
  exact ⟨by decide, ⟨(), rfl, rfl⟩, by decide, rfl⟩

/-- Witness for C3: with M2 unstated and the timestamp also mismatching
(agreement at 5, action taken at 6), the audit reports Stated. -/
theorem audit_reports_stated_first_witness :
    ∃ i, Stmts.audit wExt wValidity [] [(1, wAgr)] wActLate =
        .error (Stmts.AuditExplanation.stated i) :=
  audit_reports_stated_first wExt wValidity [] [(1, wAgr)] wActLate
    (by decide) (by decide)

end AuditTheorems

/-! ### actions.rs and actors.rs (newer revision): the View composite -/

namespace Actors

/-- Modelled from the spec: the Agreement struct of the revision used by
actors.rs is not under src (actors.rs reads its message field); spec section
3 defines an Agreement as a message together with the timestamp at which it
applies. -/
structure Agreement where
  message : Msg
  timestamp : Nat
deriving DecidableEq, Repr

/-- Action (actions.rs): the trait data relevant to the View: identifier,
actor, basis agreement, extra message set, the action's own enacted
actor-declaration statement, and the timestamp at which it was taken. -/
structure Action where
  id : Nat
  actor : Nat
  basis : Agreement
  extra : MessageSet
  enacts : Msg
  timestamp : Nat
deriving DecidableEq, Repr

/-- Set union on the list-backed MessageSet keeping first occurrences, used to
model building a payload HashSet. -/
def msetUnion (l : List Msg) : List Msg → List Msg
  | [] => l
  | m :: rest => if m ∈ l then msetUnion l rest else msetUnion (l ++ [m]) rest

/-- Modelled from the spec: Action::payload has no implementation under src;
its documented contract (actions.rs, lines 52-64, and spec section 3) is the
set union of the basis message, the extra messages and the actor-declaration
statement enacted by the action. -/
def Action.payload (a : Action) : MessageSet :=
  ⟨msetUnion [] (a.basis.message :: (a.extra.data ++ [a.enacts]))⟩

/-- OneOfSetError (actors.rs, lines 37-44): which underlying store failed. -/
inductive OneOfSetError (EA ES EE : Type) where
  | agreements (err : EA)
  | statements (err : ES)
  | enactments (err : EE)
deriving DecidableEq, Repr

/-- View errors (actors.rs, lines 68-73): a failing get names the probed
identifier and the failing store; a failing iterator names the store. -/
inductive ViewError (EA ES EE : Type) where
  | statementGet (id : Nat) (err : OneOfSetError EA ES EE)
  | statementsIter (err : OneOfSetError EA ES EE)
deriving DecidableEq, Repr

/-- View (actors.rs, lines 100-109), restricted to the three stores its two
query methods read. Each fallible store is modelled as either its error or
its list of elements in iteration order; the times store is unused by the
embedded methods and omitted. -/
structure View (EA ES EE : Type) where
  agreed : Except EA (List Agreement)
  stated : Except ES (List Msg)
  enacted : Except EE (List Action)

/-- Map::get on the agreement store: agreements are keyed by their identifier,
which is their message's identifier. -/
def findAgreement (l : List Agreement) (i : Nat) : Option Agreement :=
  l.find? (fun a => a.message.id == i)

/-- Map::get on the statement store: messages are keyed by their identifier. -/
def findMsg (l : List Msg) (i : Nat) : Option Msg :=
  l.find? (fun m => m.id == i)

/-- The loop over enacted actions in View::get_statement (actors.rs, lines
148-163): for each action, first the basis message is compared, then the
extra messages are scanned; the enacted actor-declaration statement is
deliberately not searched (source NOTE at lines 150-151). -/
def scanActions (i : Nat) : List Action → Option Msg
  | [] => none
  | a :: rest =>
    if a.basis.message.id == i then some a.basis.message
    else
      match findMsg a.extra.data i with
      | some m => some m
      | none => scanActions i rest

/-- View::get_statement (actors.rs, lines 126-165): probe the agreement store,
then the stated store, then the enacted actions, propagating the first store
error as a StatementGet error and returning the first matching message, or
none when every source is exhausted. -/
def View.getStatement {EA ES EE : Type} (v : View EA ES EE) (i : Nat) :
    Except (ViewError EA ES EE) (Option Msg) :=
  match v.agreed with
  | .error e => .error (.statementGet i (.agreements e))
  | .ok la =>
    match findAgreement la i with
    | some a => .ok (some a.message)
    | none =>
      match v.stated with
      | .error e => .error (.statementGet i (.statements e))
      | .ok ls =>
        match findMsg ls i with
        | some m => .ok (some m)
        | none =>
          match v.enacted with
          | .error e => .error (.statementGet i (.enactments e))
          | .ok le => .ok (scanActions i le)

/-- View::statements (actors.rs, lines 178-196): chain the agreement messages,
the stated messages, and the full payload of every enacted action, after
propagating the first failing store as a StatementsIter error. -/
def View.statements {EA ES EE : Type} (v : View EA ES EE) :
    Except (ViewError EA ES EE) (List Msg) :=
  match v.agreed with
  | .error e => .error (.statementsIter (.agreements e))
  | .ok la =>
    match v.stated with
    | .error e => .error (.statementsIter (.statements e))
    | .ok ls =>
      match v.enacted with
      | .error e => .error (.statementsIter (.enactments e))
      | .ok le =>
        .ok (la.map Agreement.message ++ ls
          ++ le.flatMap (fun a => a.payload.data))

end Actors

instance {ε α : Type} [DecidableEq ε] [DecidableEq α] :
    DecidableEq (Except ε α)
  | .ok a, .ok b =>
    decidable_of_iff (a = b) ⟨fun h => h ▸ rfl, fun h => by injection h⟩
  | .ok _, .error _ => isFalse (fun h => by injection h)
  | .error _, .ok _ => isFalse (fun h => by injection h)
  | .error a, .error b =>
    decidable_of_iff (a = b) ⟨fun h => h ▸ rfl, fun h => by injection h⟩

section ViewTheorems

open Actors

/-- The message list the View's queries conceptually scan for the enacted
store when probing by identifier: each action contributes its basis message
followed by its extra messages. -/
def actionScanList (le : List Actors.Action) : List Msg :=
  le.flatMap (fun a => a.basis.message :: a.extra.data)

/-- The per-action loop of get_statement returns the first identifier match
in the flattened basis-and-extras list. -/
theorem scanActions_eq_find (i : Nat) (le : List Actors.Action) :
    scanActions i le = (actionScanList le).find? (fun m => m.id == i) := by
  induction le with
  | nil => rfl
  | cons a rest ih =>
    unfold actionScanList at ih ⊢
    rw [List.flatMap_cons, List.cons_append, List.find?]
    cases hb : a.basis.message.id == i with
    | true => simp [scanActions, hb]
    | false =>
      simp only [scanActions, hb, Bool.false_eq_true, if_false,
        List.find?_append, ← ih]
      cases hm : findMsg a.extra.data i with
      | some m =>
        have h2 : a.extra.data.find? (fun m => m.id == i) = some m := hm
        simp [hm, h2]
      | none =>
        have h2 : a.extra.data.find? (fun m => m.id == i) = none := hm
        simp [hm, h2]

/-- Characterization of View::get_statement on non-erroring stores: it
returns the first identifier match in the concatenation of the agreement
messages, the stated messages and each action's basis and extras, in that
order. -/
theorem getStatement_ok_char {EA ES EE : Type} (v : View EA ES EE)
    (la : List Actors.Agreement) (ls : List Msg) (le : List Actors.Action)
    (i : Nat) (ha : v.agreed = .ok la) (hs : v.stated = .ok ls)
    (he : v.enacted = .ok le) :
    v.getStatement i =
      .ok ((la.map Actors.Agreement.message ++ ls ++ actionScanList le).find?
        (fun m => m.id == i)) := by
  unfold View.getStatement
  rw [ha, hs, he]
  rw [List.find?_append, List.find?_append]
  have hmap : (la.map Actors.Agreement.message).find? (fun m => m.id == i)
      = Option.map Actors.Agreement.message (findAgreement la i) := by
    rw [List.find?_map]
    rfl
  cases hfa : findAgreement la i with
  | some a => simp [hfa, hmap]
  | none =>
    simp only [hfa, hmap, Option.map_none', Option.none_or]
    cases hfm : findMsg ls i with
    | some m =>
      have h2 : ls.find? (fun m => m.id == i) = some m := hfm
      simp [hfm, h2]
    | none =>
      have h2 : ls.find? (fun m => m.id == i) = none := hfm
      simp only [hfm, h2, Option.none_or]
      rw [scanActions_eq_find]

/-- C4: on a View whose stores do not error, get_statement scans the
agreement store, then the stated store, then each enacted action's basis and
extra messages, in that fixed order, returning the first message whose
identifier matches (so an identifier present both as an agreement and as a
stated message resolves to the agreed version) and succeeding with none when
no source contains it. -/
theorem getStatement_scan_order {EA ES EE : Type} (v : View EA ES EE)
    (la : List Actors.Agreement) (ls : List Msg) (le : List Actors.Action)
    (i : Nat) (ha : v.agreed = .ok la) (hs : v.stated = .ok ls)
    (he : v.enacted = .ok le) :
    v.getStatement i =
      .ok ((la.map Actors.Agreement.message ++ ls ++ actionScanList le).find?
        (fun m => m.id == i)) :=
  getStatement_ok_char v la ls le i ha hs he

/-- The agreed message of the concrete View scenario (identifier 1). -/
def vAgrMsg : Msg := { id := 1, author := 3, payload := [10] }

/-- A stated message with the same identifier 1 as the agreed message but
different content, to probe precedence. -/
def vStatedDup : Msg := { id := 1, author := 3, payload := [99] }

/-- The basis message of the enacted action in the concrete View scenario. -/
def vBasisMsg : Msg := { id := 4, author := 3, payload := [4] }

/-- The enacted actor-declaration statement of the concrete View scenario;
its identifier 5 occurs in no other source. -/
def vEnactsMsg : Msg := { id := 5, author := 6, payload := [5] }

/-- The agreement of the concrete View scenario. -/
def vAgr : Actors.Agreement := { message := vAgrMsg, timestamp := 5 }

/-- The enacted action of the concrete View scenario: basis vBasisMsg, no
extras, enacting vEnactsMsg. -/
def vAct : Actors.Action :=
  { id := 9, actor := 6, basis := { message := vBasisMsg, timestamp := 5 },
    extra := ⟨[]⟩, enacts := vEnactsMsg, timestamp := 5 }

/-- The concrete View scenario: one agreement, one stated duplicate of its
message, one enacted action; none of the stores error. -/
def vView : Actors.View Unit Unit Unit :=
  { agreed := .ok [vAgr], stated := .ok [vStatedDup], enacted := .ok [vAct] }

/-- Witness for C4: in the concrete View, identifier 1 is present both as an
agreement and as a stated message, and get_statement returns the agreed
version. -/
theorem getStatement_scan_order_witness :
    vView.getStatement 1 = .ok (some vAgrMsg) :=
  (getStatement_scan_order vView [vAgr] [vStatedDup] [vAct] 1 rfl rfl rfl).trans
    (by rfl)

/-- Counterexample for C5: the claim says statements() yields, for each
enacted action, only its basis and extra messages. In the concrete View the
action's payload also contains the enacted actor-declaration statement
vEnactsMsg, so the produced sequence differs from the claimed one. -/
theorem statements_claim_counterexample :
    vView.statements = .ok [vAgrMsg, vStatedDup, vBasisMsg, vEnactsMsg] ∧
      vView.statements ≠
        .ok (List.map Actors.Agreement.message [vAgr] ++ [vStatedDup]
          ++ actionScanList [vAct]) := by
  exact ⟨rfl, by decide⟩

/-- Counts distribute over flatMap: the count in the flattened list is the
sum of the per-piece counts. -/
theorem count_flatMap {α β : Type} [DecidableEq β] (f : α → List β)
    (l : List α) (b : β) :
    (l.flatMap f).count b = (l.map (fun a => (f a).count b)).sum := by
  induction l with
  | nil => rfl
  | cons x xs ih => simp [List.count_append, ih]

/-- C5 (amended): on a View whose stores produce their iterators without
error, statements() yields every agreement message, then every stated
message, then, for each enacted action, every message of that action's full
payload (basis, extras and the enacted actor-declaration statement), in that
enumeration order; occurrences across sources are not deduplicated, so each
message is yielded once per source occurrence. -/
theorem statements_yields_full_payloads {EA ES EE : Type} (v : View EA ES EE)
    (la : List Actors.Agreement) (ls : List Msg) (le : List Actors.Action)
    (ha : v.agreed = .ok la) (hs : v.stated = .ok ls)
    (he : v.enacted = .ok le) :
    v.statements = .ok (la.map Actors.Agreement.message ++ ls
        ++ le.flatMap (fun a => a.payload.data)) ∧
      ∀ m : Msg,
        (la.map Actors.Agreement.message ++ ls
            ++ le.flatMap (fun a => a.payload.data)).count m
          = (la.map Actors.Agreement.message).count m + ls.count m
            + (le.map (fun a => a.payload.data.count m)).sum := by
  constructor
  · unfold View.statements
    rw [ha, hs, he]
  · intro m
    rw [List.count_append, List.count_append, count_flatMap, add_assoc]

/-- Witness for C5 (amended): evaluating the amended statement at the
concrete View yields the four messages, the enacted statement included. -/
theorem statements_yields_full_payloads_witness :
    vView.statements = .ok [vAgrMsg, vStatedDup, vBasisMsg, vEnactsMsg] :=
  ((statements_yields_full_payloads vView [vAgr] [vStatedDup] [vAct]
    rfl rfl rfl).1).trans (by rfl)

/-- Counterexample for C9: the enacted actor-declaration statement vEnactsMsg
is yielded by statements() as part of the action's payload, yet probing
get_statement with its identifier finds nothing (the enacted statement is
deliberately not searched). -/
theorem statements_not_all_gettable :
    vView.statements = .ok [vAgrMsg, vStatedDup, vBasisMsg, vEnactsMsg] ∧
      vEnactsMsg ∈ [vAgrMsg, vStatedDup, vBasisMsg, vEnactsMsg] ∧
      vView.getStatement vEnactsMsg.id = .ok none := by
  exact ⟨rfl, by decide, rfl⟩

/-- C9 (amended): on a View whose stores are infallible, every message that
statements() yields from the agreement store, the stated store, or an
enacted action's basis or extra messages is reachable through get_statement:
probing with its identifier returns some message bearing that identifier.
The enacted actor-declaration statement of an action, although yielded by
statements(), is exempt. -/
theorem getStatement_covers_scanned {EA ES EE : Type} (v : View EA ES EE)
    (la : List Actors.Agreement) (ls : List Msg) (le : List Actors.Action)
    (ha : v.agreed = .ok la) (hs : v.stated = .ok ls)
    (he : v.enacted = .ok le) (m : Msg)
    (hm : m ∈ la.map Actors.Agreement.message ++ ls ++ actionScanList le) :
    ∃ m2, v.getStatement m.id = .ok (some m2) ∧ m2.id = m.id := by
  have hchar := getStatement_ok_char v la ls le m.id ha hs he
  have hsome : ((la.map Actors.Agreement.message ++ ls
      ++ actionScanList le).find? (fun x => x.id == m.id)).isSome = true := by
    rw [List.find?_isSome]
    exact ⟨m, hm, by simp⟩
  rcases Option.isSome_iff_exists.mp hsome with ⟨m2, hm2⟩
  refine ⟨m2, by rw [hchar, hm2], ?_⟩
  have hp := List.find?_some hm2
  simpa using hp

/-- Witness for C9 (amended): the basis message of the concrete View's
enacted action is reachable through get_statement. -/
theorem getStatement_covers_scanned_witness :
    ∃ m2, vView.getStatement vBasisMsg.id = .ok (some m2) ∧
      m2.id = vBasisMsg.id :=
  getStatement_covers_scanned vView [vAgr] [vStatedDup] [vAct] rfl rfl rfl
    vBasisMsg (by decide)

end ViewTheorems

/-! ### The View's mutating operations (spec-modelled) -/

/-- Access-control errors of the View's mutating operations (spec sections
4.2 and 7). -/
inductive ViewMutError where
  | illegalState
  | illegalEnact
  | illegalGossip
deriving DecidableEq, Repr

/-- Modelled from the spec: the mutating side of an agent's view, whose
state, enact and gossip operations appear in no file under src. The view
carries the owning agent's identifier, its stated messages and its enacted
actions. -/
structure AgentView where
  id : Nat
  stated : List Msg
  enacted : List Actors.Action
deriving DecidableEq, Repr

/-- Modelled from the spec: state(msg) fails with IllegalState unless the
message's author identifier equals the view-owning agent's identifier; on
success the message joins the agent's stated set. -/
def AgentView.state (v : AgentView) (m : Msg) :
    Except ViewMutError AgentView :=
  if m.author = v.id then .ok { v with stated := v.stated ++ [m] }
  else .error .illegalState

/-- Modelled from the spec: enact(action) fails with IllegalEnact unless the
action's actor identifier equals the view-owning agent's identifier. -/
def AgentView.enact (v : AgentView) (a : Actors.Action) :
    Except ViewMutError AgentView :=
  if a.actor = v.id then .ok { v with enacted := v.enacted ++ [a] }
  else .error .illegalEnact

/-- Modelled from the spec: gossip(to, msg) fails with IllegalGossip when the
message is absent from the agent's own stated set, and otherwise succeeds,
propagating the message to the recipient's view. -/
def AgentView.gossip (v : AgentView) (recip : AgentView) (m : Msg) :
    Except ViewMutError AgentView :=
  if m ∈ v.stated then .ok { recip with stated := recip.stated ++ [m] }
  else .error .illegalGossip

/-- C7: the View's mutating operations are access-controlled: state fails
with IllegalState exactly unless the message's author is the owning agent;
enact fails with IllegalEnact exactly unless the action's actor is the
owning agent; gossip fails with IllegalGossip when the message is absent
from the agent's own stated set and otherwise succeeds, propagating the
message to the recipient. -/
theorem view_access_control (v recip : AgentView) (m : Msg)
    (a : Actors.Action) :
    (m.author ≠ v.id → v.state m = .error .illegalState) ∧
    (m.author = v.id → ∃ v2, v.state m = .ok v2 ∧ m ∈ v2.stated) ∧
    (a.actor ≠ v.id → v.enact a = .error .illegalEnact) ∧
    (a.actor = v.id → ∃ v2, v.enact a = .ok v2 ∧ a ∈ v2.enacted) ∧
    (m ∉ v.stated → v.gossip recip m = .error .illegalGossip) ∧
    (m ∈ v.stated → ∃ w, v.gossip recip m = .ok w ∧ m ∈ w.stated) := by
  refine ⟨fun h => ?_, fun h => ?_, fun h => ?_, fun h => ?_, fun h => ?_,
    fun h => ?_⟩
  · simp [AgentView.state, h]
  · exact ⟨{ v with stated := v.stated ++ [m] },
      by simp [AgentView.state, h], by simp⟩
  · simp [AgentView.enact, h]
  · exact ⟨{ v with enacted := v.enacted ++ [a] },
      by simp [AgentView.enact, h], by simp⟩
  · simp [AgentView.gossip, h]
  · exact ⟨{ recip with stated := recip.stated ++ [m] },
      by simp [AgentView.gossip, h], by simp⟩

/-- Witness for C7: a concrete agent that has stated msgA may gossip it to
another agent, whose view then holds it. -/
theorem view_access_control_witness :
    ∃ w, AgentView.gossip ⟨3, [msgA], []⟩ ⟨4, [], []⟩ msgA = .ok w ∧
      msgA ∈ w.stated :=
  (view_access_control ⟨3, [msgA], []⟩ ⟨4, [], []⟩ msgA vAct).2.2.2.2.2
    (by decide)

/-! ### collections/map.rs: MapSync for Vec and HashMap -/

/-- MapSync::add for Vec (collections/map.rs, lines 361-377): scan for an
element carrying the same identifier, swap the new element into its place
and return the previous element, or push the new element at the end. -/
def vecMapAdd (l : List Msg) (e : Msg) : List Msg × Option Msg :=
  match l with
  | [] => ([e], none)
  | x :: rest =>
    if e.id = x.id then (e :: rest, some x)
    else (x :: (vecMapAdd rest e).1, (vecMapAdd rest e).2)

/-- Map::get for Vec (collections/map.rs, lines 283-293): the first element
carrying the probed identifier. -/
def vecMapGet (l : List Msg) (i : Nat) : Option Msg :=
  l.find? (fun x => x.id == i)

/-- MapSync::add for HashMap (collections/map.rs, lines 378-391): insert
keyed by the element's identifier. The HashMap is modelled as an association
list with at most one binding per key: the bound value is replaced and the
previous one returned, or the binding is appended. -/
def hashMapAdd (m : List (Nat × Msg)) (e : Msg) :
    List (Nat × Msg) × Option Msg :=
  match m with
  | [] => ([(e.id, e)], none)
  | (k, v) :: rest =>
    if k = e.id then ((k, e) :: rest, some v)
    else ((k, v) :: (hashMapAdd rest e).1, (hashMapAdd rest e).2)

/-- Map::get for HashMap (collections/map.rs, lines 316-321). -/
def hashMapGet (m : List (Nat × Msg)) (i : Nat) : Option Msg :=
  (m.find? (fun p => p.1 == i)).map Prod.snd

/-- vecMapAdd returns the first previously-present element with the same
identifier, if any. -/
theorem vecMapAdd_snd (l : List Msg) (e : Msg) :
    (vecMapAdd l e).2 = l.find? (fun x => x.id == e.id) := by
  induction l with
  | nil => rfl
  | cons x rest ih =>
    simp only [vecMapAdd]
    by_cases h : e.id = x.id
    · rw [if_pos h, List.find?_cons_of_pos _ (by simp [h])]
    · rw [if_neg h, List.find?_cons_of_neg _ (by simp [Ne.symm h])]
      exact ih

/-- After vecMapAdd, looking up the element's identifier yields the new
element. -/
theorem vecMapAdd_get (l : List Msg) (e : Msg) :
    vecMapGet (vecMapAdd l e).1 e.id = some e := by
  induction l with
  | nil =>
    show [e].find? (fun x => x.id == e.id) = some e
    rw [List.find?_cons_of_pos _ (by simp)]
  | cons x rest ih =>
    simp only [vecMapAdd]
    by_cases h : e.id = x.id
    · rw [if_pos h]
      show (e :: rest).find? (fun x => x.id == e.id) = some e
      rw [List.find?_cons_of_pos _ (by simp)]
    · rw [if_neg h]
      show (x :: (vecMapAdd rest e).1).find? (fun x => x.id == e.id) = some e
      rw [List.find?_cons_of_neg _ (by simp [Ne.symm h])]
      exact ih

/-- When no element carried the identifier, vecMapAdd appends. -/
theorem vecMapAdd_push (l : List Msg) (e : Msg)
    (h : (vecMapAdd l e).2 = none) : (vecMapAdd l e).1 = l ++ [e] := by
  induction l with
  | nil => rfl
  | cons x rest ih =>
    simp only [vecMapAdd] at h ⊢
    by_cases hx : e.id = x.id
    · rw [if_pos hx] at h
      exact absurd h (by simp)
    · rw [if_neg hx] at h ⊢
      simp [ih h]

/-- hashMapAdd returns the value previously bound to the identifier, if
any. -/
theorem hashMapAdd_snd (m : List (Nat × Msg)) (e : Msg) :
    (hashMapAdd m e).2 = (m.find? (fun p => p.1 == e.id)).map Prod.snd := by
  induction m with
  | nil => rfl
  | cons kv rest ih =>
    obtain ⟨k, v⟩ := kv
    simp only [hashMapAdd]
    by_cases h : k = e.id
    · rw [if_pos h, List.find?_cons_of_pos _ (by simp [h])]
      rfl
    · rw [if_neg h, List.find?_cons_of_neg _ (by simp [h])]
      exact ih

/-- After hashMapAdd, looking up the element's identifier yields the new
element. -/
theorem hashMapAdd_get (m : List (Nat × Msg)) (e : Msg) :
    hashMapGet (hashMapAdd m e).1 e.id = some e := by
  induction m with
  | nil =>
    show ([(e.id, e)].find? (fun p => p.1 == e.id)).map Prod.snd = some e
    rw [List.find?_cons_of_pos _ (by simp)]
    rfl
  | cons kv rest ih =>
    obtain ⟨k, v⟩ := kv
    simp only [hashMapAdd]
    by_cases h : k = e.id
    · rw [if_pos h]
      show (((k, e) :: rest).find? (fun p => p.1 == e.id)).map Prod.snd
        = some e
      rw [List.find?_cons_of_pos _ (by simp [h])]
      rfl
    · rw [if_neg h]
      show (((k, v) :: (hashMapAdd rest e).1).find?
        (fun p => p.1 == e.id)).map Prod.snd = some e
      rw [List.find?_cons_of_neg _ (by simp [h])]
      exact ih

/-- When the identifier was unbound, hashMapAdd appends the binding. -/
theorem hashMapAdd_push (m : List (Nat × Msg)) (e : Msg)
    (h : (hashMapAdd m e).2 = none) : (hashMapAdd m e).1 = m ++ [(e.id, e)] := by
  induction m with
  | nil => rfl
  | cons kv rest ih =>
    obtain ⟨k, v⟩ := kv
    simp only [hashMapAdd] at h ⊢
    by_cases hx : k = e.id
    · rw [if_pos hx] at h
      exact absurd h (by simp)
    · rw [if_neg hx] at h ⊢
      simp [ih h]

/-- C8: for both provided synchronized maps, add is a total replace-by-id:
the previous element with the same identifier, if any, is returned and
replaced by the new element; otherwise the new element is appended and
nothing is returned; in both cases looking up the element's identifier
afterwards yields the new element. -/
theorem mapSync_add_replace_by_id (l : List Msg) (m : List (Nat × Msg))
    (e : Msg) :
    ((vecMapAdd l e).2 = l.find? (fun x => x.id == e.id)) ∧
    vecMapGet (vecMapAdd l e).1 e.id = some e ∧
    ((vecMapAdd l e).2 = none → (vecMapAdd l e).1 = l ++ [e]) ∧
    ((hashMapAdd m e).2 = (m.find? (fun p => p.1 == e.id)).map Prod.snd) ∧
    hashMapGet (hashMapAdd m e).1 e.id = some e ∧
    ((hashMapAdd m e).2 = none → (hashMapAdd m e).1 = m ++ [(e.id, e)]) :=
  ⟨vecMapAdd_snd l e, vecMapAdd_get l e, vecMapAdd_push l e,
    hashMapAdd_snd m e, hashMapAdd_get m e, hashMapAdd_push m e⟩

/-- Witness for C8: adding msgA to a Vec holding only msgB appends it, and
the lookup afterwards yields msgA. -/
theorem mapSync_add_replace_by_id_witness :
    (vecMapAdd [msgB] msgA).1 = [msgB] ++ [msgA] ∧
      vecMapGet (vecMapAdd [msgB] msgA).1 msgA.id = some msgA :=
  ⟨(mapSync_add_replace_by_id [msgB] [] msgA).2.2.1 (by decide),
    (mapSync_add_replace_by_id [msgB] [(2, msgB)] msgA).2.1⟩

/-! ### collections/map.rs: the InfallibleMap wrapper -/

/-- A Map implementation (collections/map.rs, trait Map) as the bundle of its
fallible operations over an error type. The getF, iterF and lenF fields are
the trait's required methods; containsKeyF and isEmptyF below are its
provided methods, derived exactly as in the source. -/
structure MapImpl (ε : Type) where
  getF : Nat → Except ε (Option Msg)
  iterF : Except ε (List Msg)
  lenF : Except ε Nat

/-- Map::contains_key (collections/map.rs, lines 200-206): get mapped to
presence. -/
def MapImpl.containsKeyF {ε : Type} (m : MapImpl ε) (i : Nat) :
    Except ε Bool :=
  (m.getF i).map Option.isSome

/-- Map::is_empty (collections/map.rs, lines 252-253): len compared with
zero. -/
def MapImpl.isEmptyF {ε : Type} (m : MapImpl ε) : Except ε Bool :=
  m.lenF.map (fun n => n == 0)

/-- Result::unwrap_unchecked as called by the InfallibleMap impl: reaching
the error branch is undefined behaviour, modelled as none; the defined
branch yields some. -/
def unwrapUnchecked {ε α : Type} : Except ε α → Option α
  | .ok a => some a
  | .error _ => none

/-- InfallibleMap::get (collections/map.rs, lines 85-93). The Infallible
error type is Empty, whose absence of values makes the error branch
impossible. -/
def infallibleGet (m : MapImpl Empty) (i : Nat) : Option Msg :=
  match m.getF i with
  | .ok v => v
  | .error e => e.elim

/-- InfallibleMap::contains_key (collections/map.rs, lines 76-84). -/
def infallibleContainsKey (m : MapImpl Empty) (i : Nat) : Bool :=
  match m.containsKeyF i with
  | .ok b => b
  | .error e => e.elim

/-- InfallibleMap::iter (collections/map.rs, lines 95-103). -/
def infallibleIter (m : MapImpl Empty) : List Msg :=
  match m.iterF with
  | .ok l => l
  | .error e => e.elim

/-- InfallibleMap::len (collections/map.rs, lines 105-110). -/
def infallibleLen (m : MapImpl Empty) : Nat :=
  match m.lenF with
  | .ok n => n
  | .error e => e.elim

/-- InfallibleMap::is_empty (collections/map.rs, lines 112-117). -/
def infallibleIsEmpty (m : MapImpl Empty) : Bool :=
  match m.isEmptyF with
  | .ok b => b
  | .error e => e.elim

/-- C10: on a map whose error type is Infallible (Empty), every InfallibleMap
wrapper operation is total: the unsafe unwrap never reaches the undefined
error branch, and each wrapper returns exactly the value carried in the Ok
of the corresponding fallible operation. -/
theorem infallibleMap_total (m : MapImpl Empty) (i : Nat) :
    (unwrapUnchecked (m.getF i) = some (infallibleGet m i) ∧
      m.getF i = .ok (infallibleGet m i)) ∧
    (unwrapUnchecked (m.containsKeyF i) = some (infallibleContainsKey m i) ∧
      m.containsKeyF i = .ok (infallibleContainsKey m i)) ∧
    (unwrapUnchecked m.iterF = some (infallibleIter m) ∧
      m.iterF = .ok (infallibleIter m)) ∧
    (unwrapUnchecked m.lenF = some (infallibleLen m) ∧
      m.lenF = .ok (infallibleLen m)) ∧
    (unwrapUnchecked m.isEmptyF = some (infallibleIsEmpty m) ∧
      m.isEmptyF = .ok (infallibleIsEmpty m)) := by
  refine ⟨?_, ?_, ?_, ?_, ?_⟩
  · cases hg : m.getF i with
    | ok v => simp [unwrapUnchecked, infallibleGet, hg]
    | error e => exact e.elim
  · cases hg : m.containsKeyF i with
    | ok v => simp [unwrapUnchecked, infallibleContainsKey, hg]
    | error e => exact e.elim
  · cases hg : m.iterF with
    | ok v => simp [unwrapUnchecked, infallibleIter, hg]
    | error e => exact e.elim
  · cases hg : m.lenF with
    | ok v => simp [unwrapUnchecked, infallibleLen, hg]
    | error e => exact e.elim
  · cases hg : m.isEmptyF with
    | ok v => simp [unwrapUnchecked, infallibleIsEmpty, hg]
    | error e => exact e.elim

end JustAct
